import Mathlib

/-!
Verification development for the URL hover detector implemented in
src/src/gui/texteditor.cpp and the find results tree model declared in
src/src/gui/sidebars/findresultsmodel.h (textosaurus).

Embedding conventions.  The document text is a list of characters and
Scintilla positions (sptr_t) are integers.  The Scintilla editing surface
used by TextEditor is third party code; the calls the hover detector makes
into it are embedded with the semantics documented by Scintilla:

* SCI_GETCHARAT (charAt) returns the NUL character for a position outside
  the document;
* SCI_GETTEXTRANGE (textRange) returns the text of a half-open position
  range, clamped to the document;
* the second argument of both SCI_INDICATORFILLRANGE (indicatorFillRange)
  and SCI_INDICATORCLEARRANGE (indicatorClearRange) is a length to fill or
  clear, not an end position;
* SCN_INDICATORCLICK notifications are sent for clicks over an indicator.

The handler under study performs external calls (indicator fill and clear,
browser open); the embedding returns those calls as an explicit effect
list, in call order, so that frame properties (no call happened) are
statable.
-/

/-- Modelled from the spec: TextFactory.isCharUrlValid
(miscellaneous/textfactory.cpp is not under src/, the editor only calls
it).  Per the spec, URL-safe characters are ASCII letters, digits and the
fixed punctuation set hyphen, dot, underscore, tilde, colon, slash,
question mark, hash, at sign, exclamation mark, dollar, ampersand,
apostrophe, star, plus, comma, semicolon, equals sign and backtick; the
set is given here by ASCII code point. -/
def isCharUrlValid (c : Char) : Bool :=
  (65 ≤ c.toNat && c.toNat ≤ 90) || (97 ≤ c.toNat && c.toNat ≤ 122) ||
  (48 ≤ c.toNat && c.toNat ≤ 57) ||
  [45, 46, 95, 126, 58, 47, 63, 35, 64, 33, 36, 38, 39, 42, 43, 44, 59, 61, 96].contains c.toNat

/-- ScintillaEdit charAt (SCI_GETCHARAT): the character at a document
position, or NUL for a position outside the document (Scintilla documents
that out-of-range positions read as 0). -/
def charAt (doc : List Char) (pos : Int) : Char :=
  if 0 ≤ pos then (doc[pos.toNat]?).getD (Char.ofNat 0) else Char.ofNat 0

/-- ScintillaEdit textRange(start, end): the text of the half-open range
[start, end) of document positions, clamped to the document. -/
def textRange (doc : List Char) (s e : Int) : List Char :=
  (doc.take e.toNat).drop s.toNat

/-- The left expansion loop of TextEditor.mouseMoveEvent (texteditor.cpp
lines 127 to 136), descending from the examined position: while the
character at the position is URL-safe, the position is decremented.  The
recursion is written on the natural-number position; the loop of the
source always stops at position -1 at the latest, because charAt of
position -1 is NUL (see charAt_neg) and NUL is not URL-safe (see
nullChar_not_urlValid), which the base case encodes. -/
def scanLeftGo (doc : List Char) : Nat → Int
  | 0 => if isCharUrlValid (charAt doc 0) then -1 else 0
  | n + 1 =>
    if isCharUrlValid (charAt doc ((n : Int) + 1)) then scanLeftGo doc n
    else (n : Int) + 1

/-- The left expansion loop applied to a (nonnegative) resolved mouse
position. -/
def scanLeft (doc : List Char) (p : Int) : Int := scanLeftGo doc p.toNat

/-- The right expansion loop of TextEditor.mouseMoveEvent (texteditor.cpp
lines 140 to 149), ascending from the examined position: while the
character at the position is URL-safe, the position is incremented.  The
recursion is written on the document suffix that starts at the examined
position; charAt of any position at or past the document end is NUL (never
URL-safe), so the loop of the source stops exactly when the suffix is
exhausted, which the base case encodes. -/
def scanRightGo : List Char → Int → Int
  | [], e => e
  | c :: rest, e => if isCharUrlValid c then scanRightGo rest (e + 1) else e

/-- The right expansion loop applied to a (nonnegative) resolved mouse
position. -/
def scanRight (doc : List Char) (p : Int) : Int :=
  scanRightGo (doc.drop p.toNat) p

/-- wordStart: the result of the left expansion loop plus one
(texteditor.cpp line 138, start++ after the loop). -/
def wordStart (doc : List Char) (p : Int) : Int := scanLeft doc p + 1

/-- wordEnd: the result of the right expansion loop; the scanned word is
the half-open range [wordStart, wordEnd). -/
def wordEnd (doc : List Char) (p : Int) : Int := scanRight doc p

/-- The character class of the URL regular expression at texteditor.cpp
lines 152 to 153: uppercase letters, lowercase letters, digits, and the
punctuation listed in the class (hyphen, dot, underscore, tilde, colon,
slash, question mark, hash, at sign, exclamation mark, dollar, ampersand,
apostrophe, star, plus, comma, semicolon, equals sign, backtick; the class
lists the dot twice, which does not change the set). -/
def urlRegexClassChar (c : Char) : Bool :=
  (65 ≤ c.toNat && c.toNat ≤ 90) || (97 ≤ c.toNat && c.toNat ≤ 122) ||
  (48 ≤ c.toNat && c.toNat ≤ 57) ||
  [45, 46, 95, 126, 58, 47, 63, 35, 64, 33, 36, 38, 39, 42, 43, 44, 59, 61, 96].contains c.toNat

/-- The scheme alternation of the URL regular expression
(https?://, ftp://, mailto:), tried at the head of a suffix of the
subject.  At any one position at most one alternative can match the
subject (https:// and http:// disagree on the character after http, and
ftp:// and mailto: start with different letters), so the PCRE alternative
order and backtracking between alternatives do not matter; the result is
the length of the matched scheme. -/
def schemeLenAt (s : List Char) : Option Nat :=
  if List.isPrefixOf "https://".toList s then some 8
  else if List.isPrefixOf "http://".toList s then some 7
  else if List.isPrefixOf "ftp://".toList s then some 6
  else if List.isPrefixOf "mailto:".toList s then some 7
  else none

/-- QRegularExpression match of the URL pattern against a subject, as a
search (not an anchored match): subject positions are scanned from the
left; at the first position where a scheme alternative matches and at
least one class character follows, the match is the scheme followed by the
maximal (greedy) run of class characters; otherwise the scan moves one
position to the right.  The result carries capturedStart and capturedEnd
of the whole match. -/
def urlSearchGo : List Char → Nat → Option (Nat × Nat)
  | [], _ => none
  | c :: rest, i =>
    match schemeLenAt (c :: rest) with
    | some schemeLen =>
      let run := (((c :: rest).drop schemeLen).takeWhile urlRegexClassChar).length
      if 1 ≤ run then some (i, i + schemeLen + run) else urlSearchGo rest (i + 1)
    | none => urlSearchGo rest (i + 1)

/-- capturedStart and capturedEnd of the URL regular expression search
over a subject, or none when there is no match. -/
def urlSearch (s : List Char) : Option (Nat × Nat) := urlSearchGo s 0

/-- The hover span state owned by the editor widget: m_indicatorStart and
m_indicatorStop.  The no-active-span sentinel is (-1, -1). -/
structure HoverState where
  indicatorStart : Int
  indicatorStop : Int
deriving DecidableEq

/-- An external call made by the mouse-move handler into the indicator
surface.  Following the Scintilla signatures, the second argument of both
calls is a length. -/
inductive Effect where
  | clearIndicator (pos lengthClear : Int)
  | fillIndicator (pos lengthFill : Int)
deriving DecidableEq

/-- The set of document positions cleared by an indicator-surface call:
SCI_INDICATORCLEARRANGE(pos, lengthClear) clears [pos, pos + lengthClear).
Stated as a decidable test on one position. -/
def clearsPos (e : Effect) (x : Int) : Bool :=
  match e with
  | Effect.clearIndicator pos lengthClear => decide (pos ≤ x ∧ x < pos + lengthClear)
  | Effect.fillIndicator _ _ => false

/-- The outcome of one mouse-move event: the new stored span state, the
indicator-surface calls in call order, and, when the handler ran the word
expansion and regex scan, the scanned word bounds (recording that the
charAt / textRange / regex work was performed at all). -/
structure MouseMoveResult where
  state : HoverState
  effects : List Effect
  scannedWord : Option (Int × Int)
deriving DecidableEq

/-- TextEditor.mouseMoveEvent (texteditor.cpp lines 110 to 172) given the
resolved text position of the mouse (positionFromPointClose; -1 when the
cursor is not close to text).

The source, step by step: if text_pos > m_indicatorStart or
text_pos < m_indicatorStop, it clears the indicator with
indicatorClearRange(m_indicatorStart, m_indicatorStop), resets the state
to (-1, -1), and then, if text_pos >= 0, expands to the word
[wordStart, wordEnd), extracts that text, and searches the URL regular
expression in it.  On a match it stores
(wordStart + capturedStart, wordEnd - rangedText.size + capturedEnd) and
fills the indicator with indicatorFillRange(newStart, newStop - newStart);
on no match it stores (wordStart, wordEnd) and fills nothing.  (The
indicSetHoverStyle and setIndicatorCurrent style-plumbing calls carry no
range and are not modelled.) -/
def mouseMoveEvent (doc : List Char) (st : HoverState) (text_pos : Int) :
    MouseMoveResult :=
  if text_pos > st.indicatorStart ∨ text_pos < st.indicatorStop then
    if 0 ≤ text_pos then
      match urlSearch (textRange doc (wordStart doc text_pos) (wordEnd doc text_pos)) with
      | some (ms, me) =>
        ⟨⟨wordStart doc text_pos + (ms : Int),
          wordEnd doc text_pos
            - ((textRange doc (wordStart doc text_pos) (wordEnd doc text_pos)).length : Int)
            + (me : Int)⟩,
         [Effect.clearIndicator st.indicatorStart st.indicatorStop,
          Effect.fillIndicator
            (wordStart doc text_pos + (ms : Int))
            ((wordEnd doc text_pos
                - ((textRange doc (wordStart doc text_pos) (wordEnd doc text_pos)).length : Int)
                + (me : Int))
              - (wordStart doc text_pos + (ms : Int)))],
         some (wordStart doc text_pos, wordEnd doc text_pos)⟩
      | none =>
        ⟨⟨wordStart doc text_pos, wordEnd doc text_pos⟩,
         [Effect.clearIndicator st.indicatorStart st.indicatorStop],
         some (wordStart doc text_pos, wordEnd doc text_pos)⟩
    else
      ⟨⟨-1, -1⟩,
       [Effect.clearIndicator st.indicatorStart st.indicatorStop],
       none⟩
  else
    ⟨st, [], none⟩

/-- Scintilla notification message code. -/
def SCN_INDICATORCLICK : Int := 2023

/-- Scintilla modifier bit for Shift. -/
def SCMOD_SHIFT : Int := 1

/-- Scintilla modifier bit for Ctrl. -/
def SCMOD_CTRL : Int := 2

/-- The fields of SCNotification read by the notify lambda. -/
structure SCNotification where
  code : Int
  modifiers : Int
deriving DecidableEq

/-- The notify lambda installed in the TextEditor constructor
(texteditor.cpp lines 37 to 41): on an SCN_INDICATORCLICK notification
whose modifier state equals SCMOD_CTRL, the text of the stored indicator
span is opened in the external browser
(openUrlInExternalBrowser(textRange(m_indicatorStart, m_indicatorStop))).
The returned list holds the argument of each browser-open call made. -/
def notifyHandler (doc : List Char) (st : HoverState) (pscn : SCNotification) :
    List String :=
  if pscn.code = SCN_INDICATORCLICK ∧ pscn.modifiers = SCMOD_CTRL then
    [String.mk (textRange doc st.indicatorStart st.indicatorStop)]
  else
    []

/-- A hover state is well formed when it is the sentinel or both offsets
are nonnegative; every state the handler can store is of this shape (see
mouseMoveEvent_wellFormed). -/
def WellFormedState (st : HoverState) : Prop :=
  (st.indicatorStart = -1 ∧ st.indicatorStop = -1) ∨
  (0 ≤ st.indicatorStart ∧ 0 ≤ st.indicatorStop)

/- ---------------------------------------------------------------------
The find results model (src/src/gui/sidebars/findresultsmodel.h).  The
implementation file findresultsmodel.cpp is not under src/, so the
operations are modelled from the spec.
--------------------------------------------------------------------- -/

/-- A MatchLeaf payload: one (start, end) text-offset pair.  The document
back-reference is carried by the enclosing group. -/
structure MatchEntry where
  startOff : Int
  endOff : Int
deriving DecidableEq

/-- A DocumentGroup: the weak document handle (an opaque registry index)
and the ordered MatchLeaf children. -/
structure DocGroup where
  doc : Nat
  leaves : List MatchEntry
deriving DecidableEq

/-- The find results model: the ordered DocumentGroup children of Root. -/
structure FindResultsModel where
  groups : List DocGroup
deriving DecidableEq

/-- Modelled from the spec: the group-lookup-or-create walk used by
FindResultsModel.addResults (findresultsmodel.cpp is not under src/).
The first group carrying the document handle receives the appended
leaves; when none exists, a new group for the handle is appended at the
end of the children of Root. -/
def appendToGroup : List DocGroup → Nat → List MatchEntry → List DocGroup
  | [], d, results => [⟨d, results⟩]
  | g :: gs, d, results =>
    if g.doc == d then ⟨g.doc, g.leaves ++ results⟩ :: gs
    else g :: appendToGroup gs d results

/-- Modelled from the spec: FindResultsModel.clear resets the tree to just
the Root node. -/
def FindResultsModel.clear : FindResultsModel := ⟨[]⟩

/-- Modelled from the spec: FindResultsModel.addResults(editor, results)
ensures a single group for the document handle exists (appended to the
children of Root when new) and appends one MatchLeaf per entry, in the
given order, under that group. -/
def FindResultsModel.addResults (m : FindResultsModel) (d : Nat)
    (results : List MatchEntry) : FindResultsModel :=
  ⟨appendToGroup m.groups d results⟩

/-- Run of a sequence of addResults calls against a starting child list
(list-level form used by the proofs). -/
def runFromL (gs : List DocGroup) (calls : List (Nat × List MatchEntry)) :
    List DocGroup :=
  calls.foldl (fun acc c => appendToGroup acc c.1 c.2) gs

/-- Run of a sequence of addResults calls starting from a cleared model. -/
def runCalls (calls : List (Nat × List MatchEntry)) : FindResultsModel :=
  calls.foldl (fun m c => m.addResults c.1 c.2) FindResultsModel.clear

/-- All leaves stored for a document handle, over every group carrying
that handle (with unique groups this is the leaf list of the one group). -/
def leavesForL (gs : List DocGroup) (d : Nat) : List MatchEntry :=
  ((gs.filter fun g => g.doc == d).map DocGroup.leaves).flatten

/-- The concatenation, in call order, of the result lists of the calls
made for a document handle. -/
def callsFor (d : Nat) (calls : List (Nat × List MatchEntry)) :
    List MatchEntry :=
  ((calls.filter fun c => c.1 == d).map Prod.snd).flatten

/-- A ResultNode as handed back to the tree view: Root, a DocumentGroup,
or a MatchLeaf. -/
inductive ResultNode where
  | root
  | groupNode (g : DocGroup)
  | leafNode (e : MatchEntry)
deriving DecidableEq

/-- An opaque tree-position token (QModelIndex): null/invalid, a group row
under Root, or a leaf row under a group row. -/
inductive ModelIndex where
  | invalid
  | groupIndex (row : Nat)
  | leafIndex (parentRow row : Nat)
deriving DecidableEq

/-- Whether a token denotes an existing node of the model tree. -/
def indexValid (m : FindResultsModel) : ModelIndex → Bool
  | ModelIndex.invalid => false
  | ModelIndex.groupIndex i => i < m.groups.length
  | ModelIndex.leafIndex i j =>
    match m.groups[i]? with
    | some g => j < g.leaves.length
    | none => false

/-- Modelled from the spec: FindResultsModel.itemForIndex
(findresultsmodel.cpp is not under src/) resolves an opaque tree-position
token back to the ResultNode it denotes, or Root when the token is
invalid or null. -/
def itemForIndex (m : FindResultsModel) (idx : ModelIndex) : ResultNode :=
  match idx with
  | ModelIndex.invalid => ResultNode.root
  | ModelIndex.groupIndex i =>
    match m.groups[i]? with
    | some g => ResultNode.groupNode g
    | none => ResultNode.root
  | ModelIndex.leafIndex i j =>
    match m.groups[i]? with
    | some g =>
      match g.leaves[j]? with
      | some e => ResultNode.leafNode e
      | none => ResultNode.root
    | none => ResultNode.root

/- ---------------------------------------------------------------------
Supporting lemmas.
--------------------------------------------------------------------- -/

/-- NUL is not a URL-safe character. -/
theorem nullChar_not_urlValid : isCharUrlValid (Char.ofNat 0) = false := by decide

/-- charAt of a negative position is NUL. -/
theorem charAt_neg (doc : List Char) (pos : Int) (h : pos < 0) :
    charAt doc pos = Char.ofNat 0 := by
  unfold charAt
  rw [if_neg (by omega)]

/-- The left loop never descends below position -1. -/
theorem scanLeftGo_ge (doc : List Char) (n : Nat) : -1 ≤ scanLeftGo doc n := by
  induction n with
  | zero =>
    simp only [scanLeftGo]
    split <;> omega
  | succ n ih =>
    simp only [scanLeftGo]
    split
    · exact ih
    · omega

/-- The left loop result is at most the starting position. -/
theorem scanLeftGo_le (doc : List Char) (n : Nat) : scanLeftGo doc n ≤ (n : Int) := by
  induction n with
  | zero =>
    simp only [scanLeftGo]
    split <;> omega
  | succ n ih =>
    simp only [scanLeftGo]
    split
    · omega
    · omega

/-- The right loop result is at least the starting position. -/
theorem scanRightGo_ge (s : List Char) : ∀ e : Int, e ≤ scanRightGo s e := by
  induction s with
  | nil =>
    intro e
    simp only [scanRightGo]
    omega
  | cons c rest ih =>
    intro e
    simp only [scanRightGo]
    split
    · have := ih (e + 1)
      omega
    · omega

/-- The right loop advances at most by the length of the suffix. -/
theorem scanRightGo_le (s : List Char) : ∀ e : Int,
    scanRightGo s e ≤ e + (s.length : Int) := by
  induction s with
  | nil =>
    intro e
    simp [scanRightGo]
  | cons c rest ih =>
    intro e
    simp only [scanRightGo, List.length_cons]
    split
    · have := ih (e + 1)
      push_cast
      push_cast at this
      omega
    · push_cast
      omega

/-- wordStart is never negative: the expansion is bounded on the left. -/
theorem wordStart_nonneg (doc : List Char) (p : Int) : 0 ≤ wordStart doc p := by
  unfold wordStart scanLeft
  have := scanLeftGo_ge doc p.toNat
  omega

/-- wordStart is at most one past the examined position. -/
theorem wordStart_le (doc : List Char) (p : Int) (h : 0 ≤ p) :
    wordStart doc p ≤ p + 1 := by
  unfold wordStart scanLeft
  have := scanLeftGo_le doc p.toNat
  omega

/-- wordEnd is at least the examined position. -/
theorem wordEnd_ge (doc : List Char) (p : Int) : p ≤ wordEnd doc p :=
  scanRightGo_ge (doc.drop p.toNat) p

/-- wordEnd never exceeds the document length: the expansion is bounded on
the right. -/
theorem wordEnd_le_length (doc : List Char) (p : Int) (h0 : 0 ≤ p)
    (h1 : p ≤ (doc.length : Int)) : wordEnd doc p ≤ (doc.length : Int) := by
  unfold wordEnd scanRight
  have h := scanRightGo_le (doc.drop p.toNat) p
  rw [List.length_drop] at h
  omega

/-- Length of an in-range text extraction. -/
theorem textRange_length (doc : List Char) (s e : Int) (h0 : 0 ≤ s)
    (h1 : s ≤ e) (h2 : e ≤ (doc.length : Int)) :
    ((textRange doc s e).length : Int) = e - s := by
  unfold textRange
  rw [List.length_drop, List.length_take]
  omega

/-- An extraction is never longer than the end offset. -/
theorem textRange_length_le (doc : List Char) (s e : Int) :
    ((textRange doc s e).length : Int) ≤ e.toNat := by
  unfold textRange
  rw [List.length_drop, List.length_take]
  omega

/-- If the character at a nonnegative position is not URL-safe, the left
loop stops there immediately. -/
theorem scanLeft_of_invalid (doc : List Char) (p : Int) (h0 : 0 ≤ p)
    (hc : isCharUrlValid (charAt doc p) = false) : scanLeft doc p = p := by
  unfold scanLeft
  cases hn : p.toNat with
  | zero =>
    have hp : p = 0 := by omega
    subst hp
    show scanLeftGo doc 0 = 0
    simp only [scanLeftGo]
    rw [hc]
    simp
  | succ n =>
    have hp : p = (n : Int) + 1 := by omega
    simp only [scanLeftGo]
    rw [← hp, hc]
    simp [hp]

/-- If the character at a nonnegative position is not URL-safe, the right
loop stops there immediately. -/
theorem scanRight_of_invalid (doc : List Char) (p : Int) (h0 : 0 ≤ p)
    (hc : isCharUrlValid (charAt doc p) = false) : scanRight doc p = p := by
  unfold scanRight
  cases hd : doc.drop p.toNat with
  | nil => simp [scanRightGo]
  | cons c rest =>
    have hc2 : charAt doc p = c := by
      unfold charAt
      rw [if_pos h0]
      have h1 : (doc.drop p.toNat)[0]? = some c := by rw [hd]; simp
      rw [List.getElem?_drop, Nat.add_zero] at h1
      rw [h1]
      rfl
    simp only [scanRightGo]
    rw [← hc2, hc]
    simp

/-- The degenerate extraction of an empty word is empty. -/
theorem textRange_empty (doc : List Char) (s e : Int) (h : e ≤ s) :
    textRange doc s e = [] := by
  unfold textRange
  apply List.drop_eq_nil_iff.mpr
  rw [List.length_take]
  omega

/-- The URL search of the empty subject finds nothing. -/
theorem urlSearch_nil : urlSearch [] = none := rfl

/-- Every state the mouse-move handler stores is well formed. -/
theorem mouseMoveEvent_wellFormed (doc : List Char) (st : HoverState)
    (p : Int) (h : WellFormedState st) :
    WellFormedState (mouseMoveEvent doc st p).state := by
  unfold mouseMoveEvent
  by_cases hbr : p > st.indicatorStart ∨ p < st.indicatorStop
  · rw [if_pos hbr]
    by_cases h0 : 0 ≤ p
    · rw [if_pos h0]
      rcases hu : urlSearch (textRange doc (wordStart doc p) (wordEnd doc p)) with _ | ⟨ms, me⟩
      · exact Or.inr ⟨wordStart_nonneg doc p, le_trans h0 (wordEnd_ge doc p)⟩
      · refine Or.inr ⟨?_, ?_⟩
        · show 0 ≤ wordStart doc p + (ms : Int)
          have := wordStart_nonneg doc p
          omega
        · show 0 ≤ wordEnd doc p
            - ((textRange doc (wordStart doc p) (wordEnd doc p)).length : Int) + (me : Int)
          have h1 := textRange_length_le doc (wordStart doc p) (wordEnd doc p)
          have h2 := wordEnd_ge doc p
          omega
    · rw [if_neg h0]
      exact Or.inl ⟨rfl, rfl⟩
  · rw [if_neg hbr]
    exact h

/- ---------------------------------------------------------------------
Find results model lemmas.
--------------------------------------------------------------------- -/

/-- Document handles after a group append: unchanged when the handle
already has a group, extended by the handle at the end otherwise. -/
theorem appendToGroup_map_doc (d : Nat) (results : List MatchEntry) :
    ∀ gs : List DocGroup,
      (appendToGroup gs d results).map DocGroup.doc =
        if d ∈ gs.map DocGroup.doc then gs.map DocGroup.doc
        else gs.map DocGroup.doc ++ [d] := by
  intro gs
  induction gs with
  | nil => simp [appendToGroup]
  | cons g gs ih =>
    by_cases h : g.doc = d
    · simp [appendToGroup, h]
    · have hne : ¬ d = g.doc := fun he => h he.symm
      simp only [appendToGroup, beq_iff_eq, if_neg h, List.map_cons, List.mem_cons, ih]
      by_cases hm : d ∈ gs.map DocGroup.doc
      · simp [hm, hne]
      · simp [hm, hne]

/-- A group append never creates a duplicate group. -/
theorem appendToGroup_nodup (gs : List DocGroup) (d : Nat)
    (results : List MatchEntry) (h : (gs.map DocGroup.doc).Nodup) :
    ((appendToGroup gs d results).map DocGroup.doc).Nodup := by
  rw [appendToGroup_map_doc]
  by_cases hd : d ∈ gs.map DocGroup.doc
  · rw [if_pos hd]; exact h
  · rw [if_neg hd]
    simp [List.nodup_append, h, hd]

/-- The handle set after a group append. -/
theorem appendToGroup_toFinset (gs : List DocGroup) (d : Nat)
    (results : List MatchEntry) :
    ((appendToGroup gs d results).map DocGroup.doc).toFinset =
      insert d (gs.map DocGroup.doc).toFinset := by
  rw [appendToGroup_map_doc]
  by_cases hd : d ∈ gs.map DocGroup.doc
  · rw [if_pos hd]
    exact (Finset.insert_eq_self.mpr (List.mem_toFinset.mpr hd)).symm
  · rw [if_neg hd, List.toFinset_append]
    ext x
    simp [or_comm]

/-- No group for a handle means the filter for the handle is empty. -/
theorem filter_doc_eq_nil (d : Nat) : ∀ gs : List DocGroup,
    d ∉ gs.map DocGroup.doc → gs.filter (fun g => g.doc == d) = [] := by
  intro gs
  induction gs with
  | nil => intro _; rfl
  | cons g gs ih =>
    intro h
    simp only [List.map_cons, List.mem_cons] at h
    push_neg at h
    have hcond : ¬((g.doc == d) = true) := by
      simp only [beq_iff_eq]
      exact fun he => h.1 he.symm
    rw [List.filter_cons, if_neg hcond]
    exact ih h.2

/-- Leaves stored for a handle after a group append: with unique groups,
the appended results land at the end of the leaves of that handle and no
other handle changes. -/
theorem leavesForL_appendToGroup (d : Nat) (results : List MatchEntry)
    (d0 : Nat) : ∀ gs : List DocGroup, (gs.map DocGroup.doc).Nodup →
      leavesForL (appendToGroup gs d results) d0 =
        leavesForL gs d0 ++ (if d = d0 then results else []) := by
  intro gs
  induction gs with
  | nil =>
    intro _
    by_cases h : d = d0
    · simp [appendToGroup, leavesForL, h]
    · simp [appendToGroup, leavesForL, h, fun he : (d == d0) = true => h (by simpa using he)]
  | cons g gs ih =>
    intro hnd
    rw [List.map_cons, List.nodup_cons] at hnd
    by_cases hgd : g.doc = d
    · simp only [appendToGroup, beq_iff_eq, if_pos hgd]
      by_cases h0 : d = d0
      · subst h0
        unfold leavesForL
        rw [List.filter_cons, List.filter_cons]
        rw [if_pos (by simp [hgd]), if_pos (by simp [hgd])]
        rw [filter_doc_eq_nil d gs (hgd ▸ hnd.1)]
        simp
      · unfold leavesForL
        rw [List.filter_cons, List.filter_cons]
        rw [if_neg (by simp [hgd, h0]), if_neg (by simp [hgd, h0])]
        simp [h0]
    · simp only [appendToGroup, beq_iff_eq, if_neg hgd]
      unfold leavesForL
      rw [List.filter_cons, List.filter_cons]
      by_cases h0 : g.doc = d0
      · rw [if_pos (by simp [h0]), if_pos (by simp [h0])]
        simp only [List.map_cons, List.flatten_cons]
        have hih := ih hnd.2
        unfold leavesForL at hih
        rw [hih, List.append_assoc]
      · rw [if_neg (by simp [h0]), if_neg (by simp [h0])]
        have hih := ih hnd.2
        unfold leavesForL at hih
        rw [hih]

/-- The combined invariant of a call sequence run against a start list
with unique groups: groups stay unique, the handle set is the start
handles joined with the called handles, and the leaves stored per handle
grow exactly by the called results in call order. -/
theorem runFromL_spec (calls : List (Nat × List MatchEntry)) :
    ∀ gs : List DocGroup, (gs.map DocGroup.doc).Nodup →
      ((runFromL gs calls).map DocGroup.doc).Nodup ∧
      ((runFromL gs calls).map DocGroup.doc).toFinset =
        (gs.map DocGroup.doc).toFinset ∪ (calls.map Prod.fst).toFinset ∧
      ∀ d, leavesForL (runFromL gs calls) d = leavesForL gs d ++ callsFor d calls := by
  induction calls with
  | nil =>
    intro gs h
    refine ⟨h, by simp [runFromL], ?_⟩
    intro d
    simp [runFromL, callsFor]
  | cons c rest ih =>
    intro gs h
    have h2 := appendToGroup_nodup gs c.1 c.2 h
    obtain ⟨ha, hb, hc⟩ := ih (appendToGroup gs c.1 c.2) h2
    have hrun : runFromL gs (c :: rest) = runFromL (appendToGroup gs c.1 c.2) rest := rfl
    refine ⟨hrun ▸ ha, ?_, ?_⟩
    · rw [hrun, hb, appendToGroup_toFinset]
      ext x
      simp only [Finset.mem_union, Finset.mem_insert, List.map_cons, List.toFinset_cons]
      tauto
    · intro d
      rw [hrun, hc d, leavesForL_appendToGroup c.1 c.2 d gs h]
      have hcf : callsFor d (c :: rest) =
          (if c.1 = d then c.2 else []) ++ callsFor d rest := by
        unfold callsFor
        rw [List.filter_cons]
        by_cases h0 : c.1 = d
        · rw [if_pos (by simp [h0])]
          simp [h0]
        · rw [if_neg (by simp [h0])]
          simp [h0]
      rw [hcf, List.append_assoc]

/-- The groups of a model-level run are the list-level run. -/
theorem runCalls_groups (calls : List (Nat × List MatchEntry)) :
    ∀ m : FindResultsModel,
      (calls.foldl (fun m c => m.addResults c.1 c.2) m).groups =
        runFromL m.groups calls := by
  induction calls with
  | nil => intro m; rfl
  | cons c rest ih =>
    intro m
    exact ih (m.addResults c.1 c.2)

/-- With unique groups, the leaves stored for the handle of a member group
are exactly the leaves of that group. -/
theorem leavesForL_of_mem (g : DocGroup) : ∀ gs : List DocGroup,
    (gs.map DocGroup.doc).Nodup → g ∈ gs → leavesForL gs g.doc = g.leaves := by
  intro gs
  induction gs with
  | nil => intro _ h; cases h
  | cons a gs ih =>
    intro hnd hmem
    rw [List.map_cons, List.nodup_cons] at hnd
    rcases List.mem_cons.mp hmem with rfl | hmem2
    · unfold leavesForL
      rw [List.filter_cons, if_pos (by simp)]
      rw [filter_doc_eq_nil g.doc gs hnd.1]
      simp
    · have hne : a.doc ≠ g.doc := by
        intro he
        exact hnd.1 (he ▸ List.mem_map.mpr ⟨g, hmem2, rfl⟩)
      unfold leavesForL
      rw [List.filter_cons, if_neg (by simp [hne])]
      exact ih hnd.2 hmem2

/- ---------------------------------------------------------------------
Claim theorems.
--------------------------------------------------------------------- -/

/-- C1: the claim says a mouse-move inside the active span does nothing.
The code contradicts it (and its own comment): the rescan guard reads
text_pos > m_indicatorStart or text_pos < m_indicatorStop, which holds for
every position inside a real span, so the handler clears the indicator,
rescans the word and refills on every move inside the span.  Evaluated
here on the reachable state obtained by hovering the URL http://ab at
position 3 (span [0, 9)) and then moving to position 5 inside the span:
the handler performs the scan and issues indicator calls. -/
theorem c1_code_bug :
    (mouseMoveEvent ("http://ab".toList) ⟨-1, -1⟩ 3).state = ⟨0, 9⟩ ∧
    ((0 : Int) ≤ 5 ∧ (5 : Int) < 9) ∧
    (mouseMoveEvent ("http://ab".toList) ⟨0, 9⟩ 5).scannedWord = some (0, 9) ∧
    (mouseMoveEvent ("http://ab".toList) ⟨0, 9⟩ 5).effects =
      [Effect.clearIndicator 0 9, Effect.fillIndicator 0 9] := by decide

/-- C2 (counterexample): the claim quantifies over every valid offset
outside the active span, but the rescan guard leaves the degenerate region
activeStop <= p <= activeStart untouched.  Hovering the space of the
document consisting of a space and two letters stores the span (1, 0);
the next move to offset 1 is valid and outside the half-open active span
[1, 0), the word there is [1, 3) and the regex does not match it, yet the
handler performs no scan and does not store (wordStart, wordEnd). -/
theorem c2_counterexample :
    (mouseMoveEvent (" aa".toList) ⟨-1, -1⟩ 0).state = ⟨1, 0⟩ ∧
    ((0 : Int) ≤ 1 ∧ ¬((1 : Int) ≤ 1 ∧ (1 : Int) < 0)) ∧
    wordStart (" aa".toList) 1 = 1 ∧ wordEnd (" aa".toList) 1 = 3 ∧
    urlSearch (textRange (" aa".toList) 1 3) = none ∧
    (mouseMoveEvent (" aa".toList) ⟨1, 0⟩ 1).state ≠ ⟨1, 3⟩ ∧
    (mouseMoveEvent (" aa".toList) ⟨1, 0⟩ 1).scannedWord = none := by decide

/-- C2 (amended): for every mouse-move at a valid offset that satisfies
the rescan guard of the handler (p > activeStart or p < activeStop), after
expanding to the word [wordStart, wordEnd): when the URL regex search over
the extracted word matches, the new span is wordStart plus the in-text
match bounds and the indicator is filled over exactly that sub-range (the
fill call carries its start and its length); when it does not match, the
new span is (wordStart, wordEnd) and no fill call is made. -/
theorem c2_rescan_updates_span (doc : List Char) (st : HoverState) (p : Int)
    (h0 : 0 ≤ p) (hlen : p ≤ (doc.length : Int))
    (hbr : p > st.indicatorStart ∨ p < st.indicatorStop) :
    (∀ ms me,
      urlSearch (textRange doc (wordStart doc p) (wordEnd doc p)) = some (ms, me) →
      (mouseMoveEvent doc st p).state =
        ⟨wordStart doc p + (ms : Int), wordStart doc p + (me : Int)⟩ ∧
      (mouseMoveEvent doc st p).effects =
        [Effect.clearIndicator st.indicatorStart st.indicatorStop,
         Effect.fillIndicator (wordStart doc p + (ms : Int)) ((me : Int) - (ms : Int))]) ∧
    (urlSearch (textRange doc (wordStart doc p) (wordEnd doc p)) = none →
      (mouseMoveEvent doc st p).state = ⟨wordStart doc p, wordEnd doc p⟩ ∧
      (mouseMoveEvent doc st p).effects =
        [Effect.clearIndicator st.indicatorStart st.indicatorStop]) := by
  constructor
  · intro ms me hsome
    have hws0 : 0 ≤ wordStart doc p := wordStart_nonneg doc p
    have hwe : wordEnd doc p ≤ (doc.length : Int) := wordEnd_le_length doc p h0 hlen
    have hwe0 : p ≤ wordEnd doc p := wordEnd_ge doc p
    have hlt : wordStart doc p ≤ wordEnd doc p := by
      by_contra hge
      push_neg at hge
      rw [textRange_empty doc (wordStart doc p) (wordEnd doc p) (le_of_lt hge),
        urlSearch_nil] at hsome
      cases hsome
    have hL : ((textRange doc (wordStart doc p) (wordEnd doc p)).length : Int) =
        wordEnd doc p - wordStart doc p :=
      textRange_length doc (wordStart doc p) (wordEnd doc p) hws0 hlt hwe
    unfold mouseMoveEvent
    rw [if_pos hbr, if_pos h0, hsome]
    constructor
    · show (⟨wordStart doc p + (ms : Int),
          wordEnd doc p
            - ((textRange doc (wordStart doc p) (wordEnd doc p)).length : Int)
            + (me : Int)⟩ : HoverState) =
        ⟨wordStart doc p + (ms : Int), wordStart doc p + (me : Int)⟩
      have harg : wordEnd doc p
          - ((textRange doc (wordStart doc p) (wordEnd doc p)).length : Int)
          + (me : Int) = wordStart doc p + (me : Int) := by omega
      rw [harg]
    · show [Effect.clearIndicator st.indicatorStart st.indicatorStop,
        Effect.fillIndicator (wordStart doc p + (ms : Int))
          ((wordEnd doc p
              - ((textRange doc (wordStart doc p) (wordEnd doc p)).length : Int)
              + (me : Int))
            - (wordStart doc p + (ms : Int)))] =
        [Effect.clearIndicator st.indicatorStart st.indicatorStop,
         Effect.fillIndicator (wordStart doc p + (ms : Int)) ((me : Int) - (ms : Int))]
      have harg : (wordEnd doc p
          - ((textRange doc (wordStart doc p) (wordEnd doc p)).length : Int)
          + (me : Int)) - (wordStart doc p + (ms : Int)) = (me : Int) - (ms : Int) := by
        omega
      rw [harg]
  · intro hnone
    unfold mouseMoveEvent
    rw [if_pos hbr, if_pos h0, hnone]
    exact ⟨rfl, rfl⟩

/-- C2 witness: hovering position 2 of the document consisting of a
letter, a space, http://ab, a space and a letter matches the URL at
in-text bounds (0, 9) and stores the span [2, 11) with a fill call over
exactly that range. -/
theorem c2_witness :
    (mouseMoveEvent ("x http://ab y".toList) ⟨-1, -1⟩ 2).state =
      ⟨wordStart ("x http://ab y".toList) 2 + ((0 : Nat) : Int),
       wordStart ("x http://ab y".toList) 2 + ((9 : Nat) : Int)⟩ ∧
    (mouseMoveEvent ("x http://ab y".toList) ⟨-1, -1⟩ 2).effects =
      [Effect.clearIndicator (-1) (-1),
       Effect.fillIndicator (wordStart ("x http://ab y".toList) 2 + ((0 : Nat) : Int))
         (((9 : Nat) : Int) - ((0 : Nat) : Int))] :=
  (c2_rescan_updates_span ("x http://ab y".toList) ⟨-1, -1⟩ 2 (by decide)
    (by decide) (Or.inl (by decide))).1 0 9 (by decide)

/-- C3: for every valid cursor offset, the two expansion loops stay inside
the document: wordStart never goes below 0 and wordEnd never exceeds the
document length (the loops stop at the document edges because charAt
reads NUL there; both loop functions are total by construction). -/
theorem c3_expansion_bounded (doc : List Char) (p : Int) (h0 : 0 ≤ p)
    (h1 : p < (doc.length : Int)) :
    0 ≤ wordStart doc p ∧ wordEnd doc p ≤ (doc.length : Int) :=
  ⟨wordStart_nonneg doc p, wordEnd_le_length doc p h0 (le_of_lt h1)⟩

/-- C3 witness: the last offset of a two-letter document, where URL-safe
characters extend to both document edges. -/
theorem c3_witness :
    0 ≤ wordStart ("ab".toList) 1 ∧
    wordEnd ("ab".toList) 1 ≤ (("ab".toList).length : Int) :=
  c3_expansion_bounded ("ab".toList) 1 (by decide) (by decide)

/-- C4: an indicator click with exactly the Ctrl modifier makes exactly
one browser-open call whose argument is the text of the stored span
[activeStart, activeStop); a click without the Ctrl modifier state, or a
click that is not over an indicator (Scintilla then sends no
SCN_INDICATORCLICK notification), makes zero calls. -/
theorem c4_click_opens (doc : List Char) (st : HoverState)
    (pscn : SCNotification) :
    (pscn.code = SCN_INDICATORCLICK ∧ pscn.modifiers = SCMOD_CTRL →
      notifyHandler doc st pscn =
        [String.mk (textRange doc st.indicatorStart st.indicatorStop)]) ∧
    (pscn.modifiers ≠ SCMOD_CTRL → notifyHandler doc st pscn = []) ∧
    (pscn.code ≠ SCN_INDICATORCLICK → notifyHandler doc st pscn = []) := by
  refine ⟨fun h => ?_, fun h => ?_, fun h => ?_⟩
  · unfold notifyHandler
    rw [if_pos h]
  · unfold notifyHandler
    rw [if_neg (fun hc => h hc.2)]
  · unfold notifyHandler
    rw [if_neg (fun hc => h hc.1)]

/-- C4 witness: a Ctrl indicator click over the span [0, 10) of the
document mailto:a@b opens exactly that text. -/
theorem c4_witness :
    notifyHandler ("mailto:a@b".toList) ⟨0, 10⟩ ⟨2023, 2⟩ =
      [String.mk (textRange ("mailto:a@b".toList) 0 10)] :=
  (c4_click_opens ("mailto:a@b".toList) ⟨0, 10⟩ ⟨2023, 2⟩).1 ⟨rfl, rfl⟩

/-- C5: the claim says the handler first clears the indicator over exactly
the old span [activeStart, activeStop).  The code passes activeStop as the
second argument of indicatorClearRange, which Scintilla reads as a length,
so the cleared range is [activeStart, activeStart + activeStop).  Shown on
the reachable URL span [4, 16) of the document see http://ex.io yes: the
clear call issued on leaving the span clears position 17, which lies
outside the old span. -/
theorem c5_code_bug :
    (mouseMoveEvent ("see http://ex.io yes".toList) ⟨-1, -1⟩ 5).state = ⟨4, 16⟩ ∧
    (mouseMoveEvent ("see http://ex.io yes".toList) ⟨4, 16⟩ 0).effects.head? =
      some (Effect.clearIndicator 4 16) ∧
    clearsPos (Effect.clearIndicator 4 16) 17 = true ∧
    ¬((4 : Int) ≤ 17 ∧ (17 : Int) < 16) := by decide

/-- C6: a mouse-move whose position resolves to no character (negative
offset) leaves the handler in the sentinel state with no word expansion,
no regex scan and no indicator fill; when a span was stored, the clear
call for it is issued.  Stated over every well formed state (every state
the handler can store, see mouseMoveEvent_wellFormed). -/
theorem c6_offtext_clears (doc : List Char) (st : HoverState) (p : Int)
    (hwf : WellFormedState st) (hp : p < 0) :
    (mouseMoveEvent doc st p).state = ⟨-1, -1⟩ ∧
    (mouseMoveEvent doc st p).scannedWord = none ∧
    (∀ pos l, Effect.fillIndicator pos l ∉ (mouseMoveEvent doc st p).effects) ∧
    (0 ≤ st.indicatorStop →
      (mouseMoveEvent doc st p).effects =
        [Effect.clearIndicator st.indicatorStart st.indicatorStop]) := by
  unfold mouseMoveEvent
  by_cases hbr : p > st.indicatorStart ∨ p < st.indicatorStop
  · rw [if_pos hbr, if_neg (by omega)]
    refine ⟨rfl, rfl, ?_, fun _ => rfl⟩
    intro pos l hmem
    simp at hmem
  · rw [if_neg hbr]
    push_neg at hbr
    rcases hwf with ⟨h1, h2⟩ | ⟨h1, h2⟩
    · refine ⟨?_, rfl, ?_, ?_⟩
      · cases st
        simp_all
      · intro pos l hmem
        simp at hmem
      · intro hge
        omega
    · omega

/-- C6 witness: moving off-text (resolved position -1) while the span
(4, 10) is stored resets the state to the sentinel. -/
theorem c6_witness :
    (mouseMoveEvent ("hi".toList) ⟨4, 10⟩ (-1)).state = ⟨-1, -1⟩ :=
  (c6_offtext_clears ("hi".toList) ⟨4, 10⟩ (-1)
    (Or.inr ⟨by decide, by decide⟩) (by decide)).1

/-- C7: for every sequence of addResults calls run from a cleared model,
the number of DocumentGroup children of Root equals the number of distinct
document handles passed, the group handles are pairwise distinct (no
duplicate group is ever created), and the leaves of each group are the
concatenation, in call order, of the result lists passed for its handle. -/
theorem c7_group_unique_append (calls : List (Nat × List MatchEntry)) :
    (runCalls calls).groups.length = (calls.map Prod.fst).toFinset.card ∧
    ((runCalls calls).groups.map DocGroup.doc).Nodup ∧
    ∀ g ∈ (runCalls calls).groups,
      g.leaves = ((calls.filter fun c => c.1 == g.doc).map Prod.snd).flatten := by
  have hgroups : (runCalls calls).groups = runFromL [] calls :=
    runCalls_groups calls FindResultsModel.clear
  obtain ⟨ha, hb, hc⟩ := runFromL_spec calls [] (by simp)
  refine ⟨?_, hgroups ▸ ha, ?_⟩
  · rw [hgroups]
    have hcard := List.toFinset_card_of_nodup ha
    rw [hb] at hcard
    simp only [List.map_nil, List.toFinset_nil, Finset.empty_union] at hcard
    rw [hcard, List.length_map]
  · intro g hg
    rw [hgroups] at hg
    have hmem := leavesForL_of_mem g (runFromL [] calls) ha hg
    have h2 := hc g.doc
    rw [hmem] at h2
    have h3 : leavesForL [] g.doc = [] := rfl
    rw [h3, List.nil_append] at h2
    exact h2

/-- C7 witness: two addResults calls for the same handle produce one group
holding both result lists in call order. -/
theorem c7_witness :
    (runCalls [(0, [⟨1, 2⟩]), (0, [⟨3, 4⟩])]).groups.length =
      ([(0, [(⟨1, 2⟩ : MatchEntry)]), (0, [⟨3, 4⟩])].map Prod.fst).toFinset.card ∧
    (⟨0, [⟨1, 2⟩, ⟨3, 4⟩]⟩ : DocGroup).leaves =
      (([(0, [(⟨1, 2⟩ : MatchEntry)]), (0, [⟨3, 4⟩])].filter
        fun c => c.1 == (⟨0, [⟨1, 2⟩, ⟨3, 4⟩]⟩ : DocGroup).doc).map Prod.snd).flatten :=
  ⟨(c7_group_unique_append [(0, [⟨1, 2⟩]), (0, [⟨3, 4⟩])]).1,
   (c7_group_unique_append [(0, [⟨1, 2⟩]), (0, [⟨3, 4⟩])]).2.2
     ⟨0, [⟨1, 2⟩, ⟨3, 4⟩]⟩ (by decide)⟩

/-- C8: itemForIndex resolves a token to Root exactly when the token is
null/invalid (does not denote a node of the tree), so the result is always
a valid node and Root is the no-selection sentinel. -/
theorem c8_invalid_resolves_root (m : FindResultsModel) (idx : ModelIndex) :
    itemForIndex m idx = ResultNode.root ↔ indexValid m idx = false := by
  cases idx with
  | invalid => simp [itemForIndex, indexValid]
  | groupIndex i =>
    unfold itemForIndex indexValid
    cases hg : m.groups[i]? with
    | none =>
      have hlen := List.getElem?_eq_none_iff.mp hg
      simp only [hg]
      simp
      omega
    | some g =>
      have hlen := (List.getElem?_eq_some_iff.mp hg).1
      simp only [hg]
      simp
      omega
  | leafIndex i j =>
    unfold itemForIndex indexValid
    cases hg : m.groups[i]? with
    | none => simp [hg]
    | some g =>
      cases hl : g.leaves[j]? with
      | none =>
        have hlen := List.getElem?_eq_none_iff.mp hl
        simp only [hg, hl]
        simp
        omega
      | some e =>
        have hlen := (List.getElem?_eq_some_iff.mp hl).1
        simp only [hg, hl]
        simp
        omega

/-- C8 witness: the null token resolves to Root on a cleared model. -/
theorem c8_witness :
    itemForIndex FindResultsModel.clear ModelIndex.invalid = ResultNode.root :=
  (c8_invalid_resolves_root FindResultsModel.clear ModelIndex.invalid).mpr rfl

/-- C9 (counterexample): the claim quantifies over every valid offset
outside the active span, but after hovering a non-URL-safe character at
offset 3 (stored span (4, 3)), a move to the non-URL-safe character at
offset 4 is outside the empty active span [4, 3) yet the rescan guard
does not fire, so the state does not become (5, 4). -/
theorem c9_counterexample :
    (mouseMoveEvent ("aaa  ".toList) ⟨-1, -1⟩ 3).state = ⟨4, 3⟩ ∧
    ((0 : Int) ≤ 4 ∧ isCharUrlValid (charAt ("aaa  ".toList) 4) = false ∧
      ¬((4 : Int) ≤ 4 ∧ (4 : Int) < 3)) ∧
    (mouseMoveEvent ("aaa  ".toList) ⟨4, 3⟩ 4).state ≠ ⟨4 + 1, 4⟩ := by decide

/-- C9 (amended): for every mouse-move at a valid offset that satisfies
the rescan guard of the handler (p > activeStart or p < activeStop) and
whose character is not URL-safe, the expansion yields the empty word with
wordStart = p + 1 and wordEnd = p, the stored span becomes
(p + 1, p), no indicator fill is made, and the stored span violates
activeStart <= activeStop. -/
theorem c9_empty_word (doc : List Char) (st : HoverState) (p : Int)
    (h0 : 0 ≤ p) (hc : isCharUrlValid (charAt doc p) = false)
    (hbr : p > st.indicatorStart ∨ p < st.indicatorStop) :
    wordStart doc p = p + 1 ∧ wordEnd doc p = p ∧
    (mouseMoveEvent doc st p).state = ⟨p + 1, p⟩ ∧
    (∀ pos l, Effect.fillIndicator pos l ∉ (mouseMoveEvent doc st p).effects) ∧
    ¬((mouseMoveEvent doc st p).state.indicatorStart ≤
        (mouseMoveEvent doc st p).state.indicatorStop) := by
  have hws : wordStart doc p = p + 1 := by
    unfold wordStart
    rw [show scanLeft doc p = p from scanLeft_of_invalid doc p h0 hc]
  have hwe : wordEnd doc p = p := scanRight_of_invalid doc p h0 hc
  have hnil : textRange doc (wordStart doc p) (wordEnd doc p) = [] := by
    apply textRange_empty
    omega
  have hres : mouseMoveEvent doc st p =
      ⟨⟨wordStart doc p, wordEnd doc p⟩,
       [Effect.clearIndicator st.indicatorStart st.indicatorStop],
       some (wordStart doc p, wordEnd doc p)⟩ := by
    unfold mouseMoveEvent
    rw [if_pos hbr, if_pos h0, hnil, urlSearch_nil]
  refine ⟨hws, hwe, ?_, ?_, ?_⟩
  · rw [hres, hws, hwe]
  · intro pos l hmem
    rw [hres] at hmem
    simp at hmem
  · rw [hres]
    show ¬(wordStart doc p ≤ wordEnd doc p)
    omega

/-- C9 witness: hovering the space at offset 1 of a letter-space document
stores the degenerate span (2, 1). -/
theorem c9_witness :
    (mouseMoveEvent ("q ".toList) ⟨-1, -1⟩ 1).state = ⟨1 + 1, 1⟩ :=
  (c9_empty_word ("q ".toList) ⟨-1, -1⟩ 1 (by decide) (by decide)
    (Or.inl (by decide))).2.2.1

/-- C10: a browser-open call fires only when the modifier state of the
indicator click equals exactly the Ctrl modifier; Ctrl combined with Shift
(modifier state SCMOD_CTRL + SCMOD_SHIFT) or no modifier at all makes zero
calls. -/
theorem c10_exact_ctrl_only (doc : List Char) (st : HoverState)
    (pscn : SCNotification) :
    (notifyHandler doc st pscn ≠ [] → pscn.modifiers = SCMOD_CTRL) ∧
    (pscn.modifiers = SCMOD_CTRL + SCMOD_SHIFT → notifyHandler doc st pscn = []) ∧
    (pscn.modifiers = 0 → notifyHandler doc st pscn = []) := by
  refine ⟨fun h => ?_, fun h => ?_, fun h => ?_⟩
  · by_contra hm
    apply h
    unfold notifyHandler
    rw [if_neg (fun hc => hm hc.2)]
  · unfold notifyHandler
    rw [if_neg (fun hc => by rw [h] at hc; exact absurd hc.2 (by decide))]
  · unfold notifyHandler
    rw [if_neg (fun hc => by rw [h] at hc; exact absurd hc.2 (by decide))]

/-- C10 witness: an indicator click with Ctrl+Shift (modifier state 3)
opens nothing. -/
theorem c10_witness :
    notifyHandler ("z".toList) ⟨0, 1⟩ ⟨2023, 3⟩ = [] :=
  (c10_exact_ctrl_only ("z".toList) ⟨0, 1⟩ ⟨2023, 3⟩).2.1 (by decide)
